import Mathlib

/-!
Verification of the sequence utilities in
`gluon-nlp/src/gluonnlp/data/utils.py`: the sequence windower
(`slice_sequence` together with `_slice_pad_length`), the flattening helper
`concat_sequence`, the frequency counter method `Counter.discard`, and the
fall-back dictionary `DefaultLookupDict`.

Python integers are modelled as `Int`; Python floor division `//` and the
modulo operator `%` (which, for a positive divisor, return the floor
quotient and a non-negative remainder) are modelled by `Int.fdiv` and
`Int.emod`.  Python list slicing `s[a:b]` (with its clamping and
negative-index semantics) is modelled by `pySlice`.  A Python function that
can raise is modelled as returning `Except String`.
-/

namespace GluonNlpDataUtils

/-- Resolution of a Python slice endpoint against a list of length `n`: a
negative index counts from the end, and the result is clamped into
`[0, n]`. -/
def pyIndex (n : Nat) (i : Int) : Nat :=
  (if i < 0 then max (i + n) 0 else min i n).toNat

/-- Python list slicing `xs[start:stop]` with unit step. -/
def pySlice {α : Type} (xs : List α) (start stop : Int) : List α :=
  (xs.drop (pyIndex xs.length start)).take
    (pyIndex xs.length stop - pyIndex xs.length start)

/-- Python `[v] * k`: `k` copies of `v`, the empty list when `k ≤ 0`. -/
def pyRepeat {α : Type} (v : α) (k : Int) : List α :=
  List.replicate k.toNat v

/-- `_slice_pad_length(num_items, length, overlap)` from the source: the
number of pad items needed so that slicing drops no data.  Raises
(`Except.error`) when `length <= overlap`. -/
def slicePadLength (num_items len overlap : Int) : Except String Int :=
  if len ≤ overlap then
    Except.error "length needs to be larger than overlap"
  else
    let step := len - overlap
    let span := num_items - len
    let residual := Int.emod span step
    if residual ≠ 0 then
      Except.ok (step - residual)
    else
      Except.ok 0

/-- The padding step of `slice_sequence` when `pad_last` is true:
`sequence + [pad_val] * _slice_pad_length(len(sequence), length, overlap)`.
The error branch is unreachable from `slice_sequence` (the same guard was
already checked there). -/
def paddedSequence {α : Type} (sequence : List α) (len overlap : Int)
    (pad_val : α) : List α :=
  match slicePadLength (sequence.length : Int) len overlap with
  | Except.ok pad_len => sequence ++ pyRepeat pad_val pad_len
  | Except.error _ => sequence

/-- The list comprehension of `slice_sequence`:
`num_samples = (len(seq) - length) // (length - overlap) + 1` slices
`seq[i*(length-overlap) : (i+1)*length - i*overlap]` for
`i in range(num_samples)` (an empty range when `num_samples <= 0`). -/
def windows {α : Type} (seq : List α) (len overlap : Int) : List (List α) :=
  (List.range (Int.fdiv ((seq.length : Int) - len) (len - overlap) + 1).toNat).map
    (fun (i : Nat) => pySlice seq ((i : Int) * (len - overlap))
      (((i : Int) + 1) * len - (i : Int) * overlap))

/-- `slice_sequence(sequence, length, pad_last, pad_val, overlap)` from the
source.  Raises when `length <= overlap`; otherwise optionally pads the
sequence and returns the `num_samples` slices. -/
def slice_sequence {α : Type} (sequence : List α) (len : Int)
    (pad_last : Bool) (pad_val : α) (overlap : Int) :
    Except String (List (List α)) :=
  if len ≤ overlap then
    Except.error "length needs to be larger than overlap"
  else
    Except.ok (windows
      (if pad_last then paddedSequence sequence len overlap pad_val
       else sequence) len overlap)

/-- Specification-side windower, following the spec's words (section 4.1,
steps 3 and 4): `num_windows = floor((len(sequence) - length) / step) + 1`
with `step = length - overlap`, treated as zero windows when
`len(sequence) < length`; window `i` spans index range
`[i*step, i*step + length)`.  Used to state the refinement claim about
`slice_sequence` with `pad_last = False`. -/
def slice_sequence_spec {α : Type} (s : List α) (len overlap : Nat) :
    List (List α) :=
  if s.length < len then []
  else
    (List.range ((s.length - len) / (len - overlap) + 1)).map
      (fun i => (s.drop (i * (len - overlap))).take len)

/-- `concat_sequence(sequences)` from the source:
`[token for seq in sequences for token in seq if token]`.  Python
truthiness of the opaque token type is modelled by the predicate
`truthy`. -/
def concat_sequence {α : Type} (truthy : α → Bool)
    (sequences : List (List α)) : List α :=
  sequences.flatMap (fun seq => seq.filter (fun token => truthy token))

/-- A Python `Counter` (a `dict` subclass): key/count entries in insertion
order, with pairwise-distinct keys (dict keys are unique; theorems carry
the `Nodup` hypothesis explicitly). -/
abbrev Counter (κ : Type) : Type := List (κ × Int)

/-- Python `d.get(k, default)` on a dict modelled as an entry list. -/
def Counter.getD {κ : Type} [DecidableEq κ] (c : Counter κ) (k : κ)
    (d : Int) : Int :=
  match c.find? (fun e => decide (e.1 = k)) with
  | some e => e.2
  | none => d

/-- Python `d[k] = v` on a dict modelled as an entry list: update in place
when the key is present, append otherwise. -/
def Counter.set {κ : Type} [DecidableEq κ] (c : Counter κ) (k : κ)
    (v : Int) : Counter κ :=
  if c.any (fun e => decide (e.1 = k)) then
    c.map (fun e => if e.1 = k then (k, v) else e)
  else
    c ++ [(k, v)]

/-- One iteration of the loop in `Counter.discard`: on entry
`(token, count)`, either add `count` to the running `freq` (when
`count < min_freq`) or store the entry into the result dict. -/
def Counter.discardStep {κ : Type} [DecidableEq κ] (min_freq : Int)
    (acc : Int × Counter κ) (e : κ × Int) : Int × Counter κ :=
  if e.2 < min_freq then (acc.1 + e.2, acc.2)
  else (acc.1, Counter.set acc.2 e.1 e.2)

/-- `Counter.discard(min_freq, unknown_token)` from the source: iterate
over the entries, accumulating the counts below `min_freq` into `freq` and
copying the remaining entries into `ret`; finally
`ret[unknown_token] = ret.get(unknown_token, 0) + freq`. -/
def Counter.discard {κ : Type} [DecidableEq κ] (c : Counter κ)
    (min_freq : Int) (unknown_token : κ) : Counter κ :=
  let acc := c.foldl (Counter.discardStep min_freq) (0, [])
  Counter.set acc.2 unknown_token
    (Counter.getD acc.2 unknown_token 0 + acc.1)

/-- The sum of all counts held by a counter. -/
def Counter.total {κ : Type} (c : Counter κ) : Int :=
  (c.map Prod.snd).sum

/-- The keys of a counter, in insertion order. -/
def Counter.keys {κ : Type} (c : Counter κ) : List κ :=
  c.map Prod.fst

/-- `DefaultLookupDict` from the source: a dict together with the fall-back
value `_default` fixed in the constructor. -/
structure DefaultLookupDict (κ ν : Type) where
  entries : List (κ × ν)
  _default : ν

/-- Python `dict.get(k, default)`: the value stored at the first (unique,
for a dict) entry with key `k`, or `default` when `k` is absent. -/
def dictGet {κ ν : Type} [DecidableEq κ] (d : List (κ × ν)) (k : κ)
    (default : ν) : ν :=
  match d.find? (fun e => decide (e.1 = k)) with
  | some e => e.2
  | none => default

/-- `DefaultLookupDict.__getitem__(k)` from the source:
`return self.get(k, self._default)`. -/
def DefaultLookupDict.getItem {κ ν : Type} [DecidableEq κ]
    (d : DefaultLookupDict κ ν) (k : κ) : ν :=
  dictGet d.entries k d._default

example : slice_sequence [1, 2, 3, 4, 5, 6] 4 false (0 : Int) 2 =
    Except.ok [[1, 2, 3, 4], [3, 4, 5, 6]] := by rfl

example : slice_sequence [1, 2, 3, 4, 5] 3 false (0 : Int) 0 =
    Except.ok [[1, 2, 3]] := by rfl

example : slice_sequence [1, 2, 3, 4, 5] 3 true (0 : Int) 0 =
    Except.ok [[1, 2, 3], [4, 5, 0]] := by rfl

example : slice_sequence [1] 3 true (0 : Int) 1 =
    Except.ok ([] : List (List Int)) := by rfl

/-! ### Basic lemmas about the slicing model -/

theorem pyIndex_of_nonneg_le (n : Nat) (i : Int) (h0 : 0 ≤ i)
    (h1 : i ≤ (n : Int)) : pyIndex n i = i.toNat := by
  simp only [pyIndex]
  rw [if_neg (by omega)]
  omega

theorem pySlice_eq_take_drop {α : Type} (xs : List α) (a b : Int)
    (h0 : 0 ≤ a) (hab : a ≤ b) (hb : b ≤ (xs.length : Int)) :
    pySlice xs a b = (xs.drop a.toNat).take (b.toNat - a.toNat) := by
  simp only [pySlice]
  rw [pyIndex_of_nonneg_le _ _ h0 (le_trans hab hb),
    pyIndex_of_nonneg_le _ _ (le_trans h0 hab) hb]

theorem length_pySlice {α : Type} (xs : List α) (a b : Int)
    (h0 : 0 ≤ a) (hab : a ≤ b) (hb : b ≤ (xs.length : Int)) :
    ((pySlice xs a b).length : Int) = b - a := by
  rw [pySlice_eq_take_drop xs a b h0 hab hb]
  simp only [List.length_take, List.length_drop]
  omega

/-- The window bounds used by `slice_sequence`: whenever `i` ranges over
`range num_samples`, the slice `[i*(len-overlap), i*(len-overlap)+len)` lies
inside the sequence. -/
theorem window_bounds {L ov : Int} (h1 : ov < L) (N : Nat) (i : Nat)
    (hi : i < (Int.fdiv ((N : Int) - L) (L - ov) + 1).toNat) :
    0 ≤ (i : Int) * (L - ov) ∧ (i : Int) * (L - ov) + L ≤ (N : Int) := by
  have hs : 0 < L - ov := by omega
  have hi2 : (i : Int) ≤ Int.fdiv ((N : Int) - L) (L - ov) := by omega
  rw [Int.fdiv_eq_ediv _ (le_of_lt hs)] at hi2
  have h3 : (i : Int) * (L - ov) ≤ (((N : Int) - L) / (L - ov)) * (L - ov) :=
    mul_le_mul_of_nonneg_right hi2 (le_of_lt hs)
  have h4 : (((N : Int) - L) / (L - ov)) * (L - ov) ≤ (N : Int) - L :=
    Int.ediv_mul_le _ (ne_of_gt hs)
  constructor
  · positivity
  · omega

theorem slice_sequence_of_lt {α : Type} (s : List α) {L ov : Int} (pl : Bool)
    (pv : α) (h : ov < L) :
    slice_sequence s L pl pv ov =
      Except.ok (windows (if pl then paddedSequence s L ov pv else s) L ov) := by
  simp only [slice_sequence, if_neg (not_le.mpr h)]

/-- Every window produced by `windows` is a slice of length exactly `len`. -/
theorem windows_length {α : Type} (seq : List α) {L ov : Int}
    (h0 : 0 ≤ ov) (h1 : ov < L) :
    ∀ w ∈ windows seq L ov, (w.length : Int) = L := by
  intro w hw
  simp only [windows, List.mem_map, List.mem_range] at hw
  obtain ⟨i, hi, rfl⟩ := hw
  obtain ⟨hlo, hhi⟩ := window_bounds h1 seq.length i hi
  have hstop : ((i : Int) + 1) * L - (i : Int) * ov =
      (i : Int) * (L - ov) + L := by ring
  rw [hstop, length_pySlice _ _ _ hlo (by omega) hhi]
  ring

/-- C1: for every sequence, every `length > overlap >= 0`, and any
`pad_last`/`pad_val`, each window in the list returned by `slice_sequence`
has exactly `length` elements. -/
theorem slice_sequence_window_length {α : Type} (s : List α) (L ov : Int)
    (pl : Bool) (pv : α) (h0 : 0 ≤ ov) (h1 : ov < L) (ws : List (List α))
    (hok : slice_sequence s L pl pv ov = Except.ok ws) :
    ∀ w ∈ ws, (w.length : Int) = L := by
  rw [slice_sequence_of_lt s pl pv h1] at hok
  cases hok
  exact windows_length _ h0 h1

/-- Witness for C1 at `sequence = [1,2,3,4,5,6]`, `length = 4`,
`overlap = 2`, `pad_last = false`: the first returned window has length 4. -/
theorem slice_sequence_window_length_witness :
    ((([1, 2, 3, 4] : List Int)).length : Int) = 4 :=
  slice_sequence_window_length [1, 2, 3, 4, 5, 6] 4 2 false 0 (by norm_num)
    (by norm_num) [[1, 2, 3, 4], [3, 4, 5, 6]] (by rfl) [1, 2, 3, 4]
    (by simp)

/-- C4: `slice_sequence` raises the `InvalidArgument` error exactly when
`length <= overlap`, uniformly in the sequence (including the empty one)
and in `pad_last`/`pad_val`. -/
theorem slice_sequence_error_iff {α : Type} (s : List α) (L ov : Int)
    (pl : Bool) (pv : α) :
    slice_sequence s L pl pv ov =
        Except.error "length needs to be larger than overlap" ↔ L ≤ ov := by
  constructor
  · intro h
    by_contra hc
    rw [slice_sequence_of_lt s pl pv (by omega)] at h
    exact Except.noConfusion h
  · intro h
    simp only [slice_sequence, if_pos h]

/-- C7: for every `length > overlap >= 0`, slicing the empty sequence with
`pad_last = false` yields the empty list of windows. -/
theorem slice_sequence_nil {α : Type} (L ov : Int) (pv : α)
    (h0 : 0 ≤ ov) (h1 : ov < L) :
    slice_sequence ([] : List α) L false pv ov = Except.ok [] := by
  rw [slice_sequence_of_lt _ false pv h1]
  congr 1
  simp only [Bool.false_eq_true, if_false, windows, List.length_nil,
    Nat.cast_zero]
  have hfd : Int.fdiv (0 - L) (L - ov) + 1 ≤ 0 := by
    rw [Int.fdiv_eq_ediv _ (by omega)]
    have := Int.ediv_neg' (a := 0 - L) (b := L - ov) (by omega) (by omega)
    omega
  have h2 : (Int.fdiv (0 - L) (L - ov) + 1).toNat = 0 := by omega
  rw [h2]
  rfl

/-- Witness for C7 at `length = 3`, `overlap = 1`. -/
theorem slice_sequence_nil_witness :
    slice_sequence ([] : List Int) 3 false 0 1 = Except.ok [] :=
  slice_sequence_nil 3 1 0 (by norm_num) (by norm_num)

/-- C6: `slice_sequence([1,2,3,4,5,6], length=4, overlap=2)` returns
`[[1,2,3,4],[3,4,5,6]]`, and the consecutive windows share exactly their
last/first `2` elements. -/
theorem slice_sequence_overlap_example :
    slice_sequence [1, 2, 3, 4, 5, 6] 4 false (0 : Int) 2 =
        Except.ok [[1, 2, 3, 4], [3, 4, 5, 6]] ∧
      ([1, 2, 3, 4] : List Int).drop 2 = ([3, 4, 5, 6] : List Int).take 2 := by
  constructor
  · rfl
  · rfl

theorem pyIndex_natCast (n a : Nat) : pyIndex n (a : Int) = min a n := by
  simp only [pyIndex]
  rw [if_neg (by omega)]
  omega

/-- On natural slice endpoints with `a ≤ b ≤ len(xs)`, Python slicing is
`drop`-then-`take`. -/
theorem pySlice_natCast {α : Type} (xs : List α) (a b : Nat)
    (hab : a ≤ b) (hb : b ≤ xs.length) :
    pySlice xs (a : Int) (b : Int) = (xs.drop a).take (b - a) := by
  simp only [pySlice]
  rw [pyIndex_natCast, pyIndex_natCast,
    Nat.min_eq_left (le_trans hab hb), Nat.min_eq_left hb]

/-- The windower of the source, run without padding, agrees with the
specification-side windower. -/
theorem windows_eq_spec {α : Type} (s : List α) (L ov : Nat) (h : ov < L) :
    windows s (L : Int) (ov : Int) = slice_sequence_spec s L ov := by
  have hovL : (ov : Int) < (L : Int) := by exact_mod_cast h
  by_cases hlen : s.length < L
  · simp only [slice_sequence_spec, if_pos hlen, windows]
    have hneg : (s.length : Int) - (L : Int) < 0 := by
      have : (s.length : Int) < (L : Int) := by exact_mod_cast hlen
      omega
    have hfd : (Int.fdiv ((s.length : Int) - L) ((L : Int) - ov) + 1).toNat = 0 := by
      rw [Int.fdiv_eq_ediv _ (by omega)]
      have := Int.ediv_neg' hneg (b := (L : Int) - ov) (by omega)
      omega
    rw [hfd]
    rfl
  · push_neg at hlen
    simp only [slice_sequence_spec, if_neg (not_lt.mpr hlen), windows]
    have hn : (Int.fdiv ((s.length : Int) - L) ((L : Int) - ov) + 1).toNat =
        (s.length - L) / (L - ov) + 1 := by
      rw [Int.fdiv_eq_ediv _ (by omega)]
      have e : ((s.length : Int) - L) / ((L : Int) - ov) =
          (((s.length - L) / (L - ov) : Nat) : Int) := by
        rw [Int.ofNat_ediv]
        push_cast [Nat.cast_sub (le_of_lt h), Nat.cast_sub hlen]
        ring_nf
      rw [e]
      clear e
      generalize (s.length - L) / (L - ov) = x
      omega
    rw [hn]
    apply List.map_congr_left
    intro i hi
    rw [List.mem_range] at hi
    have hbound : i * (L - ov) + L ≤ s.length := by
      have h1 : i ≤ (s.length - L) / (L - ov) := by omega
      have h2 : i * (L - ov) ≤ (s.length - L) / (L - ov) * (L - ov) :=
        Nat.mul_le_mul_right _ h1
      have h3 : (s.length - L) / (L - ov) * (L - ov) ≤ s.length - L :=
        Nat.div_mul_le_self _ _
      omega
    have hA : (i : Int) * ((L : Int) - (ov : Int)) =
        ((i * (L - ov) : Nat) : Int) := by
      rw [Nat.cast_mul, show ((L - ov : Nat) : Int) = (L : Int) - ov by omega]
    have hB : ((i : Int) + 1) * (L : Int) - (i : Int) * (ov : Int) =
        ((i * (L - ov) + L : Nat) : Int) := by
      rw [Nat.cast_add, Nat.cast_mul,
        show ((L - ov : Nat) : Int) = (L : Int) - ov by omega]
      ring
    rw [hA, hB, pySlice_natCast _ _ _ (by omega) (by omega),
      show i * (L - ov) + L - i * (L - ov) = L by omega]

/-- C2: with `pad_last = False` and `length > overlap >= 0`,
`slice_sequence` returns exactly the windows
`sequence[i*step : i*step + length]` for `i` below
`floor((n - length) / step) + 1` (zero windows when `n < length`); the
trailing partial window is discarded. -/
theorem slice_sequence_no_pad_eq_spec {α : Type} (s : List α) (L ov : Nat)
    (pv : α) (h : ov < L) :
    slice_sequence s (L : Int) false pv (ov : Int) =
      Except.ok (slice_sequence_spec s L ov) := by
  rw [slice_sequence_of_lt s false pv (by exact_mod_cast h)]
  rw [if_neg (by simp)]
  rw [windows_eq_spec s L ov h]

/-- Witness for C2 at `sequence = [1,2,3,4,5]`, `length = 3`,
`overlap = 0`: the trailing `[4,5]` is dropped. -/
theorem slice_sequence_no_pad_eq_spec_witness :
    slice_sequence [1, 2, 3, 4, 5] ((3 : Nat) : Int) false (0 : Int)
        ((0 : Nat) : Int) =
      Except.ok (slice_sequence_spec [1, 2, 3, 4, 5] 3 0) :=
  slice_sequence_no_pad_eq_spec [1, 2, 3, 4, 5] 3 0 0 (by norm_num)

/-- Flattening the `k` non-overlapping chunks of size `L` of a list of
length `k * L` reconstructs the list. -/
theorem flatten_chunks {α : Type} (L : Nat) :
    ∀ (k : Nat) (s : List α), s.length = k * L →
      ((List.range k).map (fun i => (s.drop (i * L)).take L)).flatten = s := by
  intro k
  induction k with
  | zero =>
    intro s hs
    simp only [Nat.zero_mul] at hs
    simp [List.eq_nil_of_length_eq_zero hs]
  | succ n ih =>
    intro s hs
    rw [List.range_succ_eq_map]
    simp only [List.map_cons, List.map_map, List.flatten_cons, Nat.zero_mul,
      List.drop_zero]
    have hrest : (List.map ((fun i => (s.drop (i * L)).take L) ∘ Nat.succ)
        (List.range n)).flatten = s.drop L := by
      have hcong : List.map ((fun i => (s.drop (i * L)).take L) ∘ Nat.succ)
          (List.range n) =
          List.map (fun i => ((s.drop L).drop (i * L)).take L)
            (List.range n) := by
        apply List.map_congr_left
        intro i _
        simp only [Function.comp]
        rw [List.drop_drop]
        congr 2
        rw [Nat.succ_eq_add_one, Nat.add_mul, Nat.one_mul, Nat.add_comm]
      rw [hcong]
      apply ih
      rw [List.length_drop, hs]
      ring_nf
      omega
    rw [hrest]
    exact List.take_append_drop L s

/-- C5: for `overlap = 0`, `pad_last = False`, `length > 0` dividing the
sequence length, concatenating the returned windows reconstructs the
original sequence. -/
theorem slice_sequence_flatten_roundtrip {α : Type} (s : List α) (L : Nat)
    (pv : α) (hL : 0 < L) (hdvd : L ∣ s.length) :
    Except.map List.flatten (slice_sequence s (L : Int) false pv 0) =
      Except.ok s := by
  rw [show (0 : Int) = ((0 : Nat) : Int) by rfl,
    slice_sequence_no_pad_eq_spec s L 0 pv hL]
  simp only [Except.map]
  congr 1
  by_cases hlen : s.length < L
  · have hzero : s.length = 0 := by
      obtain ⟨q, hq⟩ := hdvd
      rcases q with _ | q
      · simpa using hq
      · exfalso
        have hle : L ≤ s.length := by
          rw [hq]
          exact Nat.le_mul_of_pos_right L (by omega)
        omega
    simp only [slice_sequence_spec, if_pos hlen]
    exact (List.eq_nil_of_length_eq_zero hzero).symm
  · push_neg at hlen
    simp only [slice_sequence_spec, if_neg (not_lt.mpr hlen), Nat.sub_zero]
    have hcount : (s.length - L) / L + 1 = s.length / L := by
      obtain ⟨q, hq⟩ := hdvd
      rcases q with _ | q
      · exfalso
        simp only [Nat.mul_zero] at hq
        omega
      · have e1 : L * (q + 1) - L = L * q := by
          rw [Nat.mul_succ]
          omega
        rw [hq, e1, Nat.mul_div_cancel_left _ hL, Nat.mul_div_cancel_left _ hL]
    rw [hcount]
    exact flatten_chunks L (s.length / L) s (Nat.div_mul_cancel hdvd).symm

/-- Witness for C5 at `s = [1,2,3,4,5,6]`, `length = 2`. -/
theorem slice_sequence_flatten_roundtrip_witness :
    Except.map List.flatten
        (slice_sequence [1, 2, 3, 4, 5, 6] ((2 : Nat) : Int) false (0 : Int) 0) =
      Except.ok [1, 2, 3, 4, 5, 6] :=
  slice_sequence_flatten_roundtrip [1, 2, 3, 4, 5, 6] 2 0 (by norm_num)
    (by norm_num)

/-- The padded sequence is the original with something appended (whatever
branch `_slice_pad_length` takes). -/
theorem paddedSequence_append {α : Type} (s : List α) (L ov : Int)
    (pv : α) : ∃ t, paddedSequence s L ov pv = s ++ t := by
  rcases hE : slicePadLength ((s.length : Int)) L ov with e | p
  · exact ⟨[], by simp [paddedSequence, hE]⟩
  · exact ⟨pyRepeat pv p, by simp [paddedSequence, hE]⟩

/-- After padding, the sequence length is `length` plus a whole number of
strides — provided the original sequence is longer than `overlap`. -/
theorem paddedSequence_length {α : Type} (s : List α) {L ov : Int} (pv : α)
    (h1 : ov < L) (hn : ov < (s.length : Int)) :
    ∃ q : Nat, ((paddedSequence s L ov pv).length : Int) =
      L + (L - ov) * (q : Int) := by
  have hstep : 0 < L - ov := by omega
  have hspan : (s.length : Int) - L > -(L - ov) := by omega
  simp only [paddedSequence, slicePadLength, if_neg (not_le.mpr h1)]
  by_cases hres : Int.emod ((s.length : Int) - L) (L - ov) = 0
  · rw [if_neg (by simpa using hres)]
    have hdvd : (L - ov) ∣ ((s.length : Int) - L) :=
      Int.dvd_of_emod_eq_zero hres
    obtain ⟨t, ht⟩ := hdvd
    have ht0 : 0 ≤ t := by
      rcases le_or_lt 0 t with h | h
      · exact h
      · exfalso
        have : (L - ov) * t ≤ (L - ov) * (-1) :=
          mul_le_mul_of_nonneg_left (by omega) (le_of_lt hstep)
        omega
    refine ⟨t.toNat, ?_⟩
    simp only [List.length_append, pyRepeat, List.length_replicate]
    have htn : ((t.toNat : Nat) : Int) = t := Int.toNat_of_nonneg ht0
    push_cast
    rw [htn]
    omega
  · rw [if_pos (by simpa using hres)]
    set r := Int.emod ((s.length : Int) - L) (L - ov) with hr
    have hr0 : 0 ≤ r := Int.emod_nonneg _ (by omega)
    have hrlt : r < L - ov := Int.emod_lt_of_pos _ hstep
    have hdm : (L - ov) * (((s.length : Int) - L) / (L - ov)) + r =
        (s.length : Int) - L := Int.ediv_add_emod _ _
    set d := ((s.length : Int) - L) / (L - ov) with hd
    have hd0 : -1 ≤ d := by
      rw [hd]
      rw [Int.le_ediv_iff_mul_le hstep]
      omega
    refine ⟨(d + 1).toNat, ?_⟩
    simp only [List.length_append, pyRepeat, List.length_replicate]
    have hpad : (L - ov - r) ≥ 0 := by omega
    have htn : (((L - ov - r).toNat : Nat) : Int) = L - ov - r :=
      Int.toNat_of_nonneg hpad
    have htd : (((d + 1).toNat : Nat) : Int) = d + 1 :=
      Int.toNat_of_nonneg (by omega)
    push_cast
    rw [htd]
    have : (L - ov) * (d + 1) = (L - ov) * d + (L - ov) := by ring
    omega

/-- When the sequence length is `length` plus `q` whole strides, `windows`
produces `q + 1` windows that jointly cover every element. -/
theorem windows_cover {α : Type} (seq : List α) {L ov : Int} (h0 : 0 ≤ ov)
    (h1 : ov < L) (q : Nat)
    (hlen : (seq.length : Int) = L + (L - ov) * (q : Int)) :
    windows seq L ov ≠ [] ∧ ∀ x ∈ seq, ∃ w ∈ windows seq L ov, x ∈ w := by
  have hstep : 0 < L - ov := by omega
  set stn := (L - ov).toNat with hstn_def
  have hstn : (stn : Int) = L - ov := by omega
  have hst_pos : 0 < stn := by omega
  set Ln := L.toNat with hLn_def
  have hLn : (Ln : Int) = L := by omega
  have hstLn : stn ≤ Ln := by omega
  have hNn : seq.length = Ln + stn * q := by
    have e : ((Ln + stn * q : Nat) : Int) = L + (L - ov) * (q : Int) := by
      push_cast
      rw [hstn, hLn]
    omega
  have hnum : (Int.fdiv ((seq.length : Int) - L) (L - ov) + 1).toNat =
      q + 1 := by
    rw [hlen, Int.fdiv_eq_ediv _ (by omega),
      show L + (L - ov) * (q : Int) - L = (L - ov) * (q : Int) by ring,
      Int.mul_ediv_cancel_left _ (by omega : L - ov ≠ 0)]
    omega
  constructor
  · simp only [windows, hnum, ne_eq, List.map_eq_nil_iff, List.range_eq_nil]
    omega
  · intro x hx
    obtain ⟨j, hj, hget⟩ := List.mem_iff_getElem.mp hx
    have hdm : stn * (j / stn) + j % stn = j := Nat.div_add_mod j stn
    have hmod : j % stn < stn := Nat.mod_lt _ hst_pos
    obtain ⟨i, hile, hilt, hiq⟩ :
        ∃ i : Nat, stn * i ≤ j ∧ j < stn * i + Ln ∧ i < q + 1 := by
      by_cases hc : j / stn ≤ q
      · exact ⟨j / stn, by omega, by omega, by omega⟩
      · refine ⟨q, ?_, by omega, by omega⟩
        have : stn * q ≤ stn * (j / stn) :=
          Nat.mul_le_mul_left stn (by omega)
        omega
    have hinum : stn * i + Ln ≤ seq.length := by
      have : stn * i ≤ stn * q := Nat.mul_le_mul_left stn (by omega)
      omega
    refine ⟨pySlice seq ((i : Int) * (L - ov))
      (((i : Int) + 1) * L - (i : Int) * ov), ?_, ?_⟩
    · simp only [windows, hnum, List.mem_map, List.mem_range]
      exact ⟨i, by omega, rfl⟩
    · have hA : (i : Int) * (L - ov) = ((stn * i : Nat) : Int) := by
        push_cast
        rw [hstn]
        ring
      have hB : ((i : Int) + 1) * L - (i : Int) * ov =
          ((stn * i + Ln : Nat) : Int) := by
        push_cast
        rw [hstn, hLn]
        ring
      rw [hA, hB, pySlice_natCast _ _ _ (by omega) (by omega),
        show stn * i + Ln - stn * i = Ln by omega]
      apply List.mem_iff_getElem.mpr
      refine ⟨j - stn * i, ?_, ?_⟩
      · simp only [List.length_take, List.length_drop]
        omega
      · simp only [List.getElem_take, List.getElem_drop,
          show stn * i + (j - stn * i) = j by omega]
        exact hget

/-- C3 counterexample: for the non-empty sequence `[1]` with `length = 3`,
`overlap = 1` and `pad_last = True`, `slice_sequence` pads by zero items
(the padded length `1` stays below `length`) and returns no window at all,
so the element `1` appears in no returned window. -/
theorem slice_sequence_pad_drops_data :
    slice_sequence [1] 3 true (0 : Int) 1 = Except.ok [] ∧
      paddedSequence [1] 3 1 (0 : Int) = [1] := by
  constructor
  · rfl
  · rfl

/-- C3 (amended): for every sequence longer than `overlap` (in particular
every non-empty sequence when `overlap = 0`) and every
`length > overlap >= 0`, `slice_sequence` with `pad_last = True` pads the
sequence to length at least `length`, produces at least one full window,
and every element of the original sequence appears in some returned
window. -/
theorem slice_sequence_pad_no_data_loss {α : Type} (s : List α) (L ov : Int)
    (pv : α) (h0 : 0 ≤ ov) (h1 : ov < L) (hn : ov < (s.length : Int))
    (ws : List (List α))
    (hok : slice_sequence s L true pv ov = Except.ok ws) :
    L ≤ ((paddedSequence s L ov pv).length : Int) ∧ ws ≠ [] ∧
      ∀ x ∈ s, ∃ w ∈ ws, x ∈ w := by
  obtain ⟨q, hq⟩ := paddedSequence_length s pv h1 hn
  rw [slice_sequence_of_lt s true pv h1, if_pos rfl] at hok
  cases hok
  obtain ⟨hne, hcov⟩ := windows_cover (paddedSequence s L ov pv) h0 h1 q hq
  refine ⟨?_, hne, ?_⟩
  · have : 0 ≤ (L - ov) * (q : Int) := mul_nonneg (by omega) (by omega)
    omega
  · intro x hx
    obtain ⟨t, ht⟩ := paddedSequence_append s L ov pv
    exact hcov x (by rw [ht]; exact List.mem_append_left t hx)

/-- Witness for the amended C3 at `s = [1,2,3,4,5]`, `length = 3`,
`overlap = 0`: the padded sequence `[1,2,3,4,5,0]` is long enough, the
result `[[1,2,3],[4,5,0]]` is non-empty, and every original element occurs
in one of the two windows. -/
theorem slice_sequence_pad_no_data_loss_witness :
    (3 : Int) ≤ ((paddedSequence [1, 2, 3, 4, 5] 3 0 (0 : Int)).length : Int) ∧
      ([[1, 2, 3], [4, 5, 0]] : List (List Int)) ≠ [] ∧
      ∀ x ∈ ([1, 2, 3, 4, 5] : List Int),
        ∃ w ∈ ([[1, 2, 3], [4, 5, 0]] : List (List Int)), x ∈ w :=
  slice_sequence_pad_no_data_loss [1, 2, 3, 4, 5] 3 0 0 (by norm_num)
    (by norm_num) (by norm_num) [[1, 2, 3], [4, 5, 0]] (by rfl)

/-- C8: `concat_sequence` is not a plain flatten: it concatenates the
inner sequences in order with every falsy token removed, so a token occurs
in the output iff it occurs in some inner sequence and is truthy; in
particular (with natural-number tokens, where `0` is the falsy value) the
token `0` is silently dropped. -/
theorem concat_sequence_filters {α : Type} (truthy : α → Bool)
    (sequences : List (List α)) (x : α) :
    concat_sequence truthy sequences = sequences.flatten.filter truthy ∧
      (x ∈ concat_sequence truthy sequences ↔
        (∃ s ∈ sequences, x ∈ s) ∧ truthy x = true) ∧
      concat_sequence (fun n : Nat => decide (n ≠ 0)) [[1, 0, 2], [0, 3]] =
        [1, 2, 3] := by
  have h1 : concat_sequence truthy sequences =
      sequences.flatten.filter truthy := by
    simp [concat_sequence, List.flatMap_def, List.filter_flatten]
  refine ⟨h1, ?_, by rfl⟩
  rw [h1]
  simp only [List.mem_filter, List.mem_flatten]

/-! ### Lemmas about the counter model -/

theorem Counter.set_of_not_mem_keys {κ : Type} [DecidableEq κ]
    {c : Counter κ} {k : κ} (v : Int) (h : k ∉ Counter.keys c) :
    Counter.set c k v = c ++ [(k, v)] := by
  rw [Counter.set, if_neg]
  simp only [List.any_eq_true, decide_eq_true_eq, not_exists, not_and]
  intro e he hek
  exact h (List.mem_map.mpr ⟨e, he, hek⟩)

theorem Counter.set_cons_ne {κ : Type} [DecidableEq κ] (e : κ × Int)
    (tl : Counter κ) {k : κ} (v : Int) (h : e.1 ≠ k) :
    Counter.set (e :: tl) k v = e :: Counter.set tl k v := by
  by_cases ha : tl.any (fun x => decide (x.1 = k))
  · rw [Counter.set, Counter.set, if_pos, if_pos ha]
    · simp only [List.map_cons, if_neg h]
    · simp [ha]
  · rw [Counter.set, Counter.set, if_neg, if_neg ha]
    · rfl
    · simp [ha, h]

theorem Counter.total_set_getD {κ : Type} [DecidableEq κ] :
    ∀ (c : Counter κ), (Counter.keys c).Nodup → ∀ (k : κ) (f : Int),
      Counter.total (Counter.set c k (Counter.getD c k 0 + f)) =
        Counter.total c + f := by
  intro c
  induction c with
  | nil =>
    intro _ k f
    simp [Counter.set, Counter.getD, Counter.total]
  | cons e tl ih =>
    intro hnd k f
    rw [Counter.keys, List.map_cons, List.nodup_cons] at hnd
    obtain ⟨hhead, htl⟩ := hnd
    by_cases hek : e.1 = k
    · subst hek
      have hany : (e :: tl).any (fun x => decide (x.1 = e.1)) = true := by
        simp
      have hfind : List.find? (fun x => decide (x.1 = e.1)) (e :: tl) =
          some e :=
        List.find?_cons_of_pos _ (by simp)
      have hgetD : Counter.getD (e :: tl) e.1 0 = e.2 := by
        simp only [Counter.getD, hfind]
      rw [Counter.set, if_pos hany, hgetD]
      have htlmap : tl.map
          (fun x => if x.1 = e.1 then (e.1, e.2 + f) else x) = tl := by
        rw [List.map_congr_left (g := fun x => x) ?_, List.map_id']
        intro a ha
        rw [if_neg]
        intro hae
        exact hhead (List.mem_map.mpr ⟨a, ha, hae⟩)
      rw [List.map_cons, htlmap, if_pos rfl]
      simp only [Counter.total, List.map_cons, List.sum_cons]
      omega
    · have hfind : List.find? (fun x => decide (x.1 = k)) (e :: tl) =
          List.find? (fun x => decide (x.1 = k)) tl :=
        List.find?_cons_of_neg _ (by simpa using hek)
      have hgetD : Counter.getD (e :: tl) k 0 = Counter.getD tl k 0 := by
        simp only [Counter.getD, hfind]
      rw [hgetD, Counter.set_cons_ne e tl _ hek]
      have htl2 : (Counter.keys tl).Nodup := htl
      have hih := ih htl2 k f
      simp only [Counter.total, List.map_cons, List.sum_cons] at hih ⊢
      omega

theorem Counter.mem_keys_set {κ : Type} [DecidableEq κ] (c : Counter κ)
    (k : κ) (v : Int) : k ∈ Counter.keys (Counter.set c k v) := by
  rw [Counter.set]
  by_cases h : c.any (fun e => decide (e.1 = k))
  · rw [if_pos h]
    obtain ⟨e, he, hek⟩ := List.any_eq_true.mp h
    have hek2 : e.1 = k := of_decide_eq_true hek
    simp only [Counter.keys, List.map_map, List.mem_map, Function.comp]
    exact ⟨e, he, by rw [if_pos hek2]⟩
  · rw [if_neg h]
    simp [Counter.keys]

theorem Counter.foldl_discardStep {κ : Type} [DecidableEq κ] (mf : Int) :
    ∀ (c : Counter κ) (f0 : Int) (r0 : Counter κ),
      (Counter.keys c).Nodup →
      (∀ k ∈ Counter.keys c, k ∉ Counter.keys r0) →
      c.foldl (Counter.discardStep mf) (f0, r0) =
        (f0 + ((c.filter (fun e => decide (e.2 < mf))).map Prod.snd).sum,
          r0 ++ c.filter (fun e => !decide (e.2 < mf))) := by
  intro c
  induction c with
  | nil =>
    intro f0 r0 _ _
    simp
  | cons e tl ih =>
    intro f0 r0 hnd hdisj
    rw [Counter.keys, List.map_cons, List.nodup_cons] at hnd
    obtain ⟨hhead, htl⟩ := hnd
    have hof : e.1 ∉ Counter.keys r0 := hdisj e.1 (by simp [Counter.keys])
    have hdisjtl : ∀ k ∈ Counter.keys tl, k ∉ Counter.keys r0 := by
      intro k hk
      exact hdisj k (List.mem_cons_of_mem _ hk)
    rw [List.foldl_cons]
    by_cases he : e.2 < mf
    · have hstep : Counter.discardStep mf (f0, r0) e = (f0 + e.2, r0) := by
        simp [Counter.discardStep, he]
      have hfd : List.filter (fun x => decide (x.2 < mf)) (e :: tl) =
          e :: List.filter (fun x => decide (x.2 < mf)) tl := by
        simp [List.filter_cons, he]
      have hfk : List.filter (fun x => !decide (x.2 < mf)) (e :: tl) =
          List.filter (fun x => !decide (x.2 < mf)) tl := by
        simp [List.filter_cons, he]
      rw [hstep, ih (f0 + e.2) r0 htl hdisjtl, hfd, hfk, List.map_cons,
        List.sum_cons]
      simp only [Prod.mk.injEq]
      exact ⟨by ring, trivial⟩
    · have hstep : Counter.discardStep mf (f0, r0) e =
          (f0, Counter.set r0 e.1 e.2) := by
        simp [Counter.discardStep, he]
      have hfd : List.filter (fun x => decide (x.2 < mf)) (e :: tl) =
          List.filter (fun x => decide (x.2 < mf)) tl := by
        simp [List.filter_cons, he]
      have hfk : List.filter (fun x => !decide (x.2 < mf)) (e :: tl) =
          e :: List.filter (fun x => !decide (x.2 < mf)) tl := by
        simp [List.filter_cons, he]
      have hdisj2 : ∀ k ∈ Counter.keys tl,
          k ∉ Counter.keys (r0 ++ [(e.1, e.2)]) := by
        intro k hk
        simp only [Counter.keys, List.map_append, List.mem_append,
          List.map_cons, List.map_nil, List.mem_singleton]
        rintro (hk1 | hk2)
        · exact hdisjtl k hk hk1
        · exact hhead (hk2 ▸ hk)
      rw [hstep, Counter.set_of_not_mem_keys e.2 hof,
        ih f0 (r0 ++ [(e.1, e.2)]) htl hdisj2, hfd, hfk,
        List.append_assoc, List.singleton_append, Prod.mk.eta]

theorem Counter.total_filter_split {κ : Type} (mf : Int) (c : Counter κ) :
    ((c.filter (fun e => decide (e.2 < mf))).map Prod.snd).sum +
      ((c.filter (fun e => !decide (e.2 < mf))).map Prod.snd).sum =
      Counter.total c := by
  induction c with
  | nil => simp [Counter.total]
  | cons e tl ih =>
    by_cases he : e.2 < mf
    · have hfd : List.filter (fun x => decide (x.2 < mf)) (e :: tl) =
          e :: List.filter (fun x => decide (x.2 < mf)) tl := by
        simp [List.filter_cons, he]
      have hfk : List.filter (fun x => !decide (x.2 < mf)) (e :: tl) =
          List.filter (fun x => !decide (x.2 < mf)) tl := by
        simp [List.filter_cons, he]
      simp only [hfd, hfk, List.map_cons, List.sum_cons, Counter.total]
        at ih ⊢
      omega
    · have hfd : List.filter (fun x => decide (x.2 < mf)) (e :: tl) =
          List.filter (fun x => decide (x.2 < mf)) tl := by
        simp [List.filter_cons, he]
      have hfk : List.filter (fun x => !decide (x.2 < mf)) (e :: tl) =
          e :: List.filter (fun x => !decide (x.2 < mf)) tl := by
        simp [List.filter_cons, he]
      simp only [hfd, hfk, List.map_cons, List.sum_cons, Counter.total]
        at ih ⊢
      omega

/-- C9: `Counter.discard` preserves the total count (below-threshold
counts are re-attributed to `unknown_token`, never lost), and the result
always contains the `unknown_token` key. -/
theorem Counter.discard_preserves_total {κ : Type} [DecidableEq κ]
    (c : Counter κ) (mf : Int) (u : κ) (h : (Counter.keys c).Nodup) :
    Counter.total (Counter.discard c mf u) = Counter.total c ∧
      u ∈ Counter.keys (Counter.discard c mf u) := by
  have hfold := Counter.foldl_discardStep mf c 0 [] h
    (by intro k _; simp [Counter.keys])
  simp only [Counter.discard, hfold, List.nil_append]
  constructor
  · have hnodup : (Counter.keys
        (c.filter (fun e => !decide (e.2 < mf)))).Nodup :=
      List.Nodup.sublist ((List.filter_sublist c).map Prod.fst) h
    rw [Counter.total_set_getD _ hnodup u _]
    have hsplit := Counter.total_filter_split mf c
    simp only [Counter.total] at hsplit ⊢
    omega
  · exact Counter.mem_keys_set _ u _

/-- Witness for C9 at the docstring example `{'a': 10, 'b': 1, 'c': 1}`,
`min_freq = 3`, with keys encoded as numbers (`0` plays `'<unk>'`). -/
theorem Counter.discard_preserves_total_witness :
    Counter.total (Counter.discard [(1, 10), (2, 1), (3, 1)] 3 (0 : Nat)) =
        Counter.total [(1, 10), (2, 1), (3, 1)] ∧
      (0 : Nat) ∈ Counter.keys
        (Counter.discard [(1, 10), (2, 1), (3, 1)] 3 (0 : Nat)) :=
  Counter.discard_preserves_total [(1, 10), (2, 1), (3, 1)] 3 0 (by decide)

/-- C10: `DefaultLookupDict.__getitem__` is total: it returns a stored
value when the key is present and the constructor-fixed default otherwise,
never raising a `KeyError`. -/
theorem DefaultLookupDict.getItem_total_lookup {κ ν : Type} [DecidableEq κ]
    (d : DefaultLookupDict κ ν) (k : κ) :
    (k ∈ d.entries.map Prod.fst →
      ∃ v, (k, v) ∈ d.entries ∧ d.getItem k = v) ∧
    (k ∉ d.entries.map Prod.fst → d.getItem k = d._default) := by
  rcases hfind : d.entries.find? (fun e => decide (e.1 = k)) with _ | e
  · constructor
    · intro hk
      obtain ⟨e, he, hek⟩ := List.mem_map.mp hk
      have := List.find?_eq_none.mp hfind e he
      simp only [decide_eq_true_eq] at this
      exact absurd hek this
    · intro _
      simp only [DefaultLookupDict.getItem, dictGet, hfind]
  · have hek : e.1 = k := by
      have hp := List.find?_some hfind
      simpa using hp
    have hmem : e ∈ d.entries := List.mem_of_find?_eq_some hfind
    constructor
    · intro _
      refine ⟨e.2, ?_, ?_⟩
      · rw [show (k, e.2) = e from by rw [← hek]]
        exact hmem
      · simp only [DefaultLookupDict.getItem, dictGet, hfind]
    · intro hk
      exact absurd (List.mem_map.mpr ⟨e, hmem, hek⟩) hk

/-- Witness for C10 on the dictionary `{1: 10}` with default `7`: looking
up the present key `1` returns `10`; looking up the absent key `2` falls
back to `7`. -/
theorem DefaultLookupDict.getItem_total_lookup_witness :
    (∃ v, ((1 : Nat), v) ∈ [((1 : Nat), (10 : Nat))] ∧
        (DefaultLookupDict.mk [((1 : Nat), (10 : Nat))] 7).getItem 1 = v) ∧
      (DefaultLookupDict.mk [((1 : Nat), (10 : Nat))] 7).getItem 2 = 7 :=
  ⟨(DefaultLookupDict.getItem_total_lookup ⟨[(1, 10)], 7⟩ 1).1 (by decide),
   (DefaultLookupDict.getItem_total_lookup ⟨[(1, 10)], 7⟩ 2).2 (by decide)⟩

end GluonNlpDataUtils
